import Mathlib

/-!
Verification development for the knowledge-graph expertise-search system.

The repository's visible surface is the React frontend (upload view, search
view, graph visualization); the backend ingestion-and-query pipeline (graph
upsert engine, intent normalization, query planner, ranking and shaper,
graph projector) is specified in the design document but its code is not
part of the visible sources, so those components are modelled here from the
specification.  Frontend behaviours (upload loop, empty-query guard, graph
filtering, response shapes) are embedded from the TypeScript source.
-/

/-! ## Association lists with merge-by-key

The graph store is accessed only through merge-by-key upsert operations.
We model each node/edge table as an association list and the merge as an
update-in-place (when the key is present) or an append (when absent),
parameterized by a combine function for the mutable properties.
-/

section AssocList

variable {K V : Type} [DecidableEq K]

/-- Keys of an association list, in storage order. -/
def keysOf (l : List (K × V)) : List K := l.map Prod.fst

/-- Lookup of the first entry with the given key. -/
def lookupK (k : K) : List (K × V) → Option V
  | [] => none
  | (k', v') :: t => if k' = k then some v' else lookupK k t

/-- Merge-by-key: if the key is present, combine the stored value with the
incoming one in place; otherwise append a fresh entry. -/
def mergeAt (c : V → V → V) : List (K × V) → K → V → List (K × V)
  | [], k, v => [(k, v)]
  | (k', v') :: t, k, v =>
      if k' = k then (k', c v' v) :: t else (k', v') :: mergeAt c t k v

/-- Apply a whole list of keyed assignments by repeated merge. -/
def mergeAll (c : V → V → V) (l : List (K × V)) (as : List (K × V)) :
    List (K × V) :=
  as.foldl (fun acc a => mergeAt c acc a.1 a.2) l

theorem lookupK_mergeAt_self (c : V → V → V) (l : List (K × V)) (k : K) (v : V) :
    lookupK k (mergeAt c l k v) =
      some (match lookupK k l with | some o => c o v | none => v) := by
  induction l with
  | nil => simp [mergeAt, lookupK]
  | cons h t ih =>
      obtain ⟨k', v'⟩ := h
      by_cases hk : k' = k
      · subst hk; simp [mergeAt, lookupK]
      · simp [mergeAt, lookupK, hk, ih]

theorem lookupK_mergeAt_ne (c : V → V → V) (l : List (K × V)) {k₀ k : K} (v : V)
    (h : k₀ ≠ k) : lookupK k₀ (mergeAt c l k v) = lookupK k₀ l := by
  induction l with
  | nil => simp [mergeAt, lookupK, Ne.symm h]
  | cons hd t ih =>
      obtain ⟨k', v'⟩ := hd
      by_cases hk : k' = k
      · subst hk
        simp [mergeAt, lookupK, Ne.symm h]
      · simp [mergeAt, lookupK, hk, ih]

theorem mergeAt_of_not_mem (c : V → V → V) {l : List (K × V)} {k : K} (v : V)
    (h : k ∉ keysOf l) : mergeAt c l k v = l ++ [(k, v)] := by
  induction l with
  | nil => simp [mergeAt]
  | cons hd t ih =>
      obtain ⟨k', v'⟩ := hd
      simp only [keysOf, List.map_cons, List.mem_cons] at h
      push_neg at h
      have h2 : ¬ k' = k := fun hh => h.1 hh.symm
      simp [mergeAt, h2, ih (by simpa [keysOf] using h.2)]

theorem keysOf_mergeAt_of_mem (c : V → V → V) {l : List (K × V)} {k : K} (v : V)
    (h : k ∈ keysOf l) : keysOf (mergeAt c l k v) = keysOf l := by
  induction l with
  | nil => simp [keysOf] at h
  | cons hd t ih =>
      obtain ⟨k', v'⟩ := hd
      by_cases hk : k' = k
      · subst hk; simp [mergeAt, keysOf]
      · have hmem : k ∈ keysOf t := by
          simp only [keysOf, List.map_cons, List.mem_cons] at h
          rcases h with h | h
          · exact absurd h.symm hk
          · simpa [keysOf] using h
        simp only [mergeAt, if_neg hk]
        show keysOf ((k', v') :: mergeAt c t k v) = keysOf ((k', v') :: t)
        simp only [keysOf, List.map_cons]
        exact congrArg (k' :: ·) (ih hmem)

theorem mem_keysOf_mergeAt (c : V → V → V) (l : List (K × V)) (k₀ k : K) (v : V) :
    k₀ ∈ keysOf (mergeAt c l k v) ↔ k₀ ∈ keysOf l ∨ k₀ = k := by
  induction l with
  | nil => simp [mergeAt, keysOf, eq_comm]
  | cons hd t ih =>
      obtain ⟨k', v'⟩ := hd
      by_cases hk : k' = k
      · subst hk
        simp [mergeAt, keysOf]
        tauto
      · simp only [keysOf] at ih ⊢
        simp [mergeAt, hk, List.map_cons, ih]
        tauto

theorem mergeAt_eq_self_of_lookup (c : V → V → V) {l : List (K × V)} {k : K}
    {o v : V} (h : lookupK k l = some o) (hc : c o v = o) :
    mergeAt c l k v = l := by
  induction l with
  | nil => simp [lookupK] at h
  | cons hd t ih =>
      obtain ⟨k', v'⟩ := hd
      by_cases hk : k' = k
      · subst hk
        have hv : v' = o := by simpa [lookupK] using h
        subst hv
        simp [mergeAt, hc]
      · simp only [lookupK, if_neg hk] at h
        simp [mergeAt, hk, ih h]

theorem mem_keysOf_iff_lookup (l : List (K × V)) (k : K) :
    k ∈ keysOf l ↔ (lookupK k l).isSome := by
  induction l with
  | nil => simp [keysOf, lookupK]
  | cons hd t ih =>
      obtain ⟨k', v'⟩ := hd
      by_cases hk : k' = k
      · subst hk; simp [keysOf, lookupK]
      · have hne : ¬ k = k' := fun hh => hk hh.symm
        simp only [keysOf, List.map_cons, List.mem_cons, lookupK, if_neg hk, hne,
          false_or]
        simpa [keysOf] using ih

theorem nodup_keysOf_mergeAt (c : V → V → V) {l : List (K × V)} (k : K) (v : V)
    (h : (keysOf l).Nodup) : (keysOf (mergeAt c l k v)).Nodup := by
  by_cases hm : k ∈ keysOf l
  · rw [keysOf_mergeAt_of_mem c v hm]; exact h
  · rw [mergeAt_of_not_mem c v hm]
    simpa [keysOf] using List.Nodup.append h (by simp) (by simpa [keysOf] using hm)

theorem mem_keysOf_mergeAll (c : V → V → V) (l : List (K × V))
    (as : List (K × V)) {k₀ : K} (h : k₀ ∈ keysOf l) :
    k₀ ∈ keysOf (mergeAll c l as) := by
  induction as generalizing l with
  | nil => simpa [mergeAll] using h
  | cons a t ih =>
      simp only [mergeAll, List.foldl_cons]
      exact ih _ ((mem_keysOf_mergeAt c l k₀ a.1 a.2).2 (Or.inl h))

theorem mem_keysOf_mergeAll_of_asg (c : V → V → V) (l : List (K × V))
    {as : List (K × V)} {a : K × V} (h : a ∈ as) :
    a.1 ∈ keysOf (mergeAll c l as) := by
  induction as generalizing l with
  | nil => simp at h
  | cons b t ih =>
      simp only [mergeAll, List.foldl_cons]
      rcases List.mem_cons.1 h with hh | hh
      · subst hh
        exact mem_keysOf_mergeAll c _ t
          ((mem_keysOf_mergeAt c l a.1 a.1 a.2).2 (Or.inr rfl))
      · exact ih _ hh

theorem mergeAll_eq_self (c : V → V → V) {l : List (K × V)} {as : List (K × V)}
    (h : ∀ a ∈ as, mergeAt c l a.1 a.2 = l) : mergeAll c l as = l := by
  induction as with
  | nil => rfl
  | cons a t ih =>
      simp only [mergeAll, List.foldl_cons, h a (List.mem_cons_self a t)]
      exact ih fun b hb => h b (List.mem_cons_of_mem a hb)

theorem nodup_keysOf_mergeAll (c : V → V → V) {l : List (K × V)}
    (as : List (K × V)) (h : (keysOf l).Nodup) :
    (keysOf (mergeAll c l as)).Nodup := by
  induction as generalizing l with
  | nil => simpa [mergeAll] using h
  | cons a t ih =>
      simp only [mergeAll, List.foldl_cons]
      exact ih (nodup_keysOf_mergeAt c a.1 a.2 h)

theorem mergeAll_append (c : V → V → V) (l : List (K × V)) (as : List (K × V))
    (a : K × V) :
    mergeAll c l (as ++ [a]) = mergeAt c (mergeAll c l as) a.1 a.2 := by
  simp [mergeAll, List.foldl_append]

end AssocList

/-! ### The three combine policies of the upsert engine -/

/-- Keep the stored value (immutable attributes: person display name, skill
category, existence-only edges). -/
def keepV {V : Type} (o : V) (_ : V) : V := o

/-- Overwrite with the incoming value (the `WORKS_ON` role: last write wins). -/
def overwriteV {V : Type} (_ : V) (v : V) : V := v

/-- Set only if not already set (the project description). -/
def orDflt {β : Type} (o d : Option β) : Option β :=
  match o with
  | some x => some x
  | none => d

section Replay

variable {K : Type} [DecidableEq K]

theorem mergeAll_replay_keep {V : Type} (l as : List (K × V)) :
    mergeAll keepV (mergeAll keepV l as) as = mergeAll keepV l as := by
  apply mergeAll_eq_self
  intro a ha
  have hmem := mem_keysOf_mergeAll_of_asg keepV l ha
  rw [mem_keysOf_iff_lookup] at hmem
  obtain ⟨o, ho⟩ := Option.isSome_iff_exists.1 hmem
  exact mergeAt_eq_self_of_lookup keepV ho rfl

theorem oe_lookup_some_preserved {β : Type} (as : List (K × (Option β)))
    (l : List (K × (Option β))) {k : K} {o : Option β}
    (h : lookupK k l = some o) (hs : o.isSome) :
    ∃ o', lookupK k (mergeAll orDflt l as) = some o' ∧ o'.isSome := by
  induction as generalizing l o with
  | nil => exact ⟨o, h, hs⟩
  | cons a t ih =>
      simp only [mergeAll, List.foldl_cons]
      by_cases hk : a.1 = k
      · subst hk
        have := lookupK_mergeAt_self orDflt l a.1 a.2
        rw [h] at this
        refine ih (mergeAt orDflt l a.1 a.2) this ?_
        obtain ⟨x, hx⟩ := Option.isSome_iff_exists.1 hs
        subst hx
        simp [orDflt]
      · exact ih _ (by rw [lookupK_mergeAt_ne orDflt l a.2 (fun hh => hk hh.symm)]; exact h) hs

theorem oe_some_of_asg {β : Type} (l : List (K × (Option β)))
    {as : List (K × (Option β))} {k : K} {d : Option β}
    (h : (k, d) ∈ as) (hd : d.isSome) :
    ∃ o, lookupK k (mergeAll orDflt l as) = some o ∧ o.isSome := by
  induction as generalizing l with
  | nil => simp at h
  | cons a t ih =>
      simp only [mergeAll, List.foldl_cons]
      rcases List.mem_cons.1 h with hh | hh
      · subst hh
        have hself := lookupK_mergeAt_self orDflt l k d
        refine oe_lookup_some_preserved t _ hself ?_
        obtain ⟨x, hx⟩ := Option.isSome_iff_exists.1 hd
        subst hx
        cases hlk : lookupK k l with
        | none => simp [hlk, orDflt]
        | some o => cases o <;> simp [hlk, orDflt]
      · exact ih _ hh

theorem mergeAll_replay_orDflt {β : Type} (l as : List (K × (Option β))) :
    mergeAll orDflt (mergeAll orDflt l as) as = mergeAll orDflt l as := by
  apply mergeAll_eq_self
  intro a ha
  cases hd : a.2 with
  | none =>
      have hmem := mem_keysOf_mergeAll_of_asg orDflt l ha
      rw [mem_keysOf_iff_lookup] at hmem
      obtain ⟨o, ho⟩ := Option.isSome_iff_exists.1 hmem
      refine mergeAt_eq_self_of_lookup orDflt ho ?_
      cases o <;> simp [orDflt]
  | some x =>
      obtain ⟨o, ho, hos⟩ := oe_some_of_asg l (show (a.1, a.2) ∈ as by simpa using ha)
        (show a.2.isSome by rw [hd]; rfl)
      refine mergeAt_eq_self_of_lookup orDflt ho ?_
      obtain ⟨y, hy⟩ := Option.isSome_iff_exists.1 hos
      subst hy
      simp [orDflt]

theorem ow_absorb {V : Type} (l : List (K × V)) (k : K) (v v' : V) :
    mergeAt overwriteV (mergeAt overwriteV l k v) k v' =
      mergeAt overwriteV l k v' := by
  induction l with
  | nil => simp [mergeAt, overwriteV]
  | cons hd t ih =>
      obtain ⟨k', w⟩ := hd
      by_cases hk : k' = k
      · subst hk; simp [mergeAt, overwriteV]
      · simp [mergeAt, hk, ih]

theorem mergeAt_comm {V : Type} (c : V → V → V) (l : List (K × V))
    {k k' : K} (v v' : V) (h : k ≠ k') (hk' : k' ∈ keysOf l) :
    mergeAt c (mergeAt c l k v) k' v' = mergeAt c (mergeAt c l k' v') k v := by
  induction l with
  | nil => simp [keysOf] at hk'
  | cons hd t ih =>
      obtain ⟨k₁, w⟩ := hd
      by_cases h1 : k₁ = k
      · subst h1
        have h2 : ¬ (k₁ = k') := h
        simp [mergeAt, h2, if_pos rfl]
      · by_cases h2 : k₁ = k'
        · subst h2
          simp [mergeAt, h1, if_pos rfl]
        · have hk'' : k' ∈ keysOf t := by
            simp only [keysOf, List.map_cons, List.mem_cons] at hk'
            rcases hk' with hh | hh
            · exact absurd hh.symm h2
            · simpa [keysOf] using hh
          simp [mergeAt, h1, h2, ih hk'']

theorem ow_push {V : Type} (t : List (K × V)) (k : K) (v : V) :
    ∀ W : List (K × V), (∀ a ∈ t, a.1 ∈ keysOf W) →
      mergeAt overwriteV (mergeAll overwriteV (mergeAt overwriteV W k v) t) k v =
        mergeAt overwriteV (mergeAll overwriteV W t) k v := by
  induction t with
  | nil => intro W _; simp [mergeAll, ow_absorb]
  | cons a t' ih =>
      intro W hW
      simp only [mergeAll, List.foldl_cons]
      by_cases hk : a.1 = k
      · rw [hk, ow_absorb]
      · have hka : k ≠ a.1 := fun hh => hk hh.symm
        rw [mergeAt_comm overwriteV W v a.2 hka (hW a (List.mem_cons_self a t'))]
        exact ih (mergeAt overwriteV W a.1 a.2)
          (fun b hb => (mem_keysOf_mergeAt overwriteV W b.1 a.1 a.2).2
            (Or.inl (hW b (List.mem_cons_of_mem a hb))))

theorem mergeAll_replay_overwrite {V : Type} (l as : List (K × V)) :
    mergeAll overwriteV (mergeAll overwriteV l as) as =
      mergeAll overwriteV l as := by
  induction as using List.reverseRecOn generalizing l with
  | nil => rfl
  | append_singleton t a ih =>
      rw [mergeAll_append overwriteV l t a,
        mergeAll_append overwriteV (mergeAt overwriteV (mergeAll overwriteV l t) a.1 a.2) t a,
        ow_push t a.1 a.2 (mergeAll overwriteV l t)
          (fun b hb => mem_keysOf_mergeAll_of_asg overwriteV l hb),
        ih l]

end Replay

/-! ## Data model (spec section 3) and the Graph Upsert Engine (spec 4.3)

Modelled from the spec: the backend pipeline is not part of the visible
sources of the repository, so entities, relationships and the upsert engine
are embedded following the specification's data model and component design.
-/

/-- Modelled from the spec: the normalized key of the glossary — a
case/whitespace-folded identity string used for merge-by-key deduplication. -/
def normKey (s : String) : String := s.trim.toLower

/-- One project reference inside a person entry of an extraction result:
project name, the person's role, and an optional description. -/
structure PersonProject where
  project : String
  role : String
  description : Option String
  deriving DecidableEq

/-- One person of an extraction result, with hard/soft skill lists and
project references. -/
structure PersonEntry where
  name : String
  hard_skills : List String
  soft_skills : List String
  projects : List PersonProject
  deriving DecidableEq

/-- One top-level project of an extraction result, with its technologies. -/
structure ProjectEntry where
  name : String
  description : Option String
  technologies : List String
  deriving DecidableEq

/-- Modelled from the spec: a validated extraction result
`(people: [...], projects: [...])` as produced by the Schema Validator. -/
structure ExtractionResult where
  people : List PersonEntry
  projects : List ProjectEntry
  deriving DecidableEq

/-- Modelled from the spec: the graph store state.  Each node/edge table is
an association list keyed by normalized identity (nodes) or by the ordered
endpoint pair (edges); values are the mutable attributes. -/
@[ext]
structure Graph where
  people : List (String × String)
  skills : List (String × String)
  projects : List (String × Option String)
  hard : List ((String × String) × Unit)
  soft : List ((String × String) × Unit)
  works : List ((String × String) × String)
  tech : List ((String × String) × Unit)
  deriving DecidableEq

/-- The empty graph store. -/
def emptyStore : Graph := ⟨[], [], [], [], [], [], []⟩

/-- One elementary merge operation of the upsert engine. -/
inductive Op
  | mPerson (key display : String)
  | mSkill (key category : String)
  | mProject (key : String) (description : Option String)
  | mHard (p s : String)
  | mSoft (p s : String)
  | mWorks (p proj role : String)
  | mTech (proj s : String)
  deriving DecidableEq

/-- Modelled from the spec: apply one merge operation to the graph state.
Person display names, skill categories and existence-only edges keep their
stored value; project descriptions are set only if not already set; the
`WORKS_ON` role is overwritten (last extraction wins). -/
def runOp (g : Graph) : Op → Graph
  | .mPerson k d => { g with people := mergeAt keepV g.people k d }
  | .mSkill k c => { g with skills := mergeAt keepV g.skills k c }
  | .mProject k d => { g with projects := mergeAt orDflt g.projects k d }
  | .mHard p s => { g with hard := mergeAt keepV g.hard (p, s) () }
  | .mSoft p s => { g with soft := mergeAt keepV g.soft (p, s) () }
  | .mWorks p pr r => { g with works := mergeAt overwriteV g.works (p, pr) r }
  | .mTech pr s => { g with tech := mergeAt keepV g.tech (pr, s) () }

/-- Upsert stats: nodes/edges inserted vs. already-existing (merged). -/
structure UpsertStats where
  nodesInserted : Nat
  nodesExisting : Nat
  edgesInserted : Nat
  edgesExisting : Nat
  deriving DecidableEq

/-- Whether an operation merges a node (as opposed to an edge). -/
def opIsNode : Op → Bool
  | .mPerson _ _ => true
  | .mSkill _ _ => true
  | .mProject _ _ => true
  | _ => false

/-- Whether the key an operation merges at is already present in the graph. -/
def opPresentB (g : Graph) : Op → Bool
  | .mPerson k _ => decide (k ∈ keysOf g.people)
  | .mSkill k _ => decide (k ∈ keysOf g.skills)
  | .mProject k _ => decide (k ∈ keysOf g.projects)
  | .mHard p s => decide ((p, s) ∈ keysOf g.hard)
  | .mSoft p s => decide ((p, s) ∈ keysOf g.soft)
  | .mWorks p pr _ => decide ((p, pr) ∈ keysOf g.works)
  | .mTech pr s => decide ((pr, s) ∈ keysOf g.tech)

/-- Count one merge into the stats, as inserted or already-existing. -/
def bumpStats (s : UpsertStats) (isNode existed : Bool) : UpsertStats :=
  match isNode, existed with
  | true, true => { s with nodesExisting := s.nodesExisting + 1 }
  | true, false => { s with nodesInserted := s.nodesInserted + 1 }
  | false, true => { s with edgesExisting := s.edgesExisting + 1 }
  | false, false => { s with edgesInserted := s.edgesInserted + 1 }

/-- Apply one operation, updating graph state and stats. -/
def runOpS (p : Graph × UpsertStats) (op : Op) : Graph × UpsertStats :=
  (runOp p.1 op, bumpStats p.2 (opIsNode op) (opPresentB p.1 op))

/-- State-only run of a list of operations. -/
def runOpsG (g : Graph) (ops : List Op) : Graph := ops.foldl runOp g

/-- Run of a list of operations with stats. -/
def runOpsS (p : Graph × UpsertStats) (ops : List Op) : Graph × UpsertStats :=
  ops.foldl runOpS p

/-- All-zero stats. -/
def zeroStats : UpsertStats := ⟨0, 0, 0, 0⟩

/-- Modelled from the spec (4.3): the merge operations of one person entry —
the Person node, each hard/soft skill node and edge, and each project node
and `WORKS_ON` edge. -/
def personOps (p : PersonEntry) : List Op :=
  let pk := normKey p.name
  Op.mPerson pk p.name ::
    (p.hard_skills.flatMap fun s =>
      [Op.mSkill (normKey s) "hard", Op.mHard pk (normKey s)]) ++
    (p.soft_skills.flatMap fun s =>
      [Op.mSkill (normKey s) "soft", Op.mSoft pk (normKey s)]) ++
    (p.projects.flatMap fun pr =>
      [Op.mProject (normKey pr.project) pr.description,
       Op.mWorks pk (normKey pr.project) pr.role])

/-- Modelled from the spec (4.3): the merge operations of one top-level
project entry — the Project node and each technology node and `USES_TECH`
edge. -/
def projectOps (pr : ProjectEntry) : List Op :=
  Op.mProject (normKey pr.name) pr.description ::
    (pr.technologies.flatMap fun t =>
      [Op.mSkill (normKey t) "hard", Op.mTech (normKey pr.name) (normKey t)])

/-- Modelled from the spec (4.3): the full merge script of one validated
extraction result, people first, then top-level projects. -/
def batchOps (e : ExtractionResult) : List Op :=
  e.people.flatMap personOps ++ e.projects.flatMap projectOps

/-- Modelled from the spec (4.3): the Graph Upsert Engine — merge one
validated extraction result into the graph store, returning the new state
and the inserted/already-existing stats. -/
def ingest (g : Graph) (e : ExtractionResult) : Graph × UpsertStats :=
  runOpsS (g, zeroStats) (batchOps e)

/-! ### Per-field decomposition of a run -/

/-- The person-node assignments of an operation list. -/
def peopleAsg (ops : List Op) : List (String × String) :=
  ops.filterMap fun op =>
    match op with
    | .mPerson k d => some (k, d)
    | _ => none

/-- The skill-node assignments of an operation list. -/
def skillsAsg (ops : List Op) : List (String × String) :=
  ops.filterMap fun op =>
    match op with
    | .mSkill k c => some (k, c)
    | _ => none

/-- The project-node assignments of an operation list. -/
def projectsAsg (ops : List Op) : List (String × Option String) :=
  ops.filterMap fun op =>
    match op with
    | .mProject k d => some (k, d)
    | _ => none

/-- The hard-skill-edge assignments of an operation list. -/
def hardAsg (ops : List Op) : List ((String × String) × Unit) :=
  ops.filterMap fun op =>
    match op with
    | .mHard p s => some ((p, s), ())
    | _ => none

/-- The soft-skill-edge assignments of an operation list. -/
def softAsg (ops : List Op) : List ((String × String) × Unit) :=
  ops.filterMap fun op =>
    match op with
    | .mSoft p s => some ((p, s), ())
    | _ => none

/-- The works-on-edge assignments of an operation list. -/
def worksAsg (ops : List Op) : List ((String × String) × String) :=
  ops.filterMap fun op =>
    match op with
    | .mWorks p pr r => some ((p, pr), r)
    | _ => none

/-- The uses-tech-edge assignments of an operation list. -/
def techAsg (ops : List Op) : List ((String × String) × Unit) :=
  ops.filterMap fun op =>
    match op with
    | .mTech pr s => some ((pr, s), ())
    | _ => none

theorem runOpsG_people (ops : List Op) :
    ∀ g, (runOpsG g ops).people = mergeAll keepV g.people (peopleAsg ops) := by
  induction ops with
  | nil => intro g; rfl
  | cons op t ih =>
      intro g
      cases op <;>
        simp [runOpsG, List.foldl_cons, runOp, peopleAsg, mergeAll,
          List.filterMap_cons] <;>
        simpa [runOpsG, peopleAsg, mergeAll] using ih _

theorem runOpsG_skills (ops : List Op) :
    ∀ g, (runOpsG g ops).skills = mergeAll keepV g.skills (skillsAsg ops) := by
  induction ops with
  | nil => intro g; rfl
  | cons op t ih =>
      intro g
      cases op <;>
        simp [runOpsG, List.foldl_cons, runOp, skillsAsg, mergeAll,
          List.filterMap_cons] <;>
        simpa [runOpsG, skillsAsg, mergeAll] using ih _

theorem runOpsG_projects (ops : List Op) :
    ∀ g, (runOpsG g ops).projects =
      mergeAll orDflt g.projects (projectsAsg ops) := by
  induction ops with
  | nil => intro g; rfl
  | cons op t ih =>
      intro g
      cases op <;>
        simp [runOpsG, List.foldl_cons, runOp, projectsAsg, mergeAll,
          List.filterMap_cons] <;>
        simpa [runOpsG, projectsAsg, mergeAll] using ih _

theorem runOpsG_hard (ops : List Op) :
    ∀ g, (runOpsG g ops).hard = mergeAll keepV g.hard (hardAsg ops) := by
  induction ops with
  | nil => intro g; rfl
  | cons op t ih =>
      intro g
      cases op <;>
        simp [runOpsG, List.foldl_cons, runOp, hardAsg, mergeAll,
          List.filterMap_cons] <;>
        simpa [runOpsG, hardAsg, mergeAll] using ih _

theorem runOpsG_soft (ops : List Op) :
    ∀ g, (runOpsG g ops).soft = mergeAll keepV g.soft (softAsg ops) := by
  induction ops with
  | nil => intro g; rfl
  | cons op t ih =>
      intro g
      cases op <;>
        simp [runOpsG, List.foldl_cons, runOp, softAsg, mergeAll,
          List.filterMap_cons] <;>
        simpa [runOpsG, softAsg, mergeAll] using ih _

theorem runOpsG_works (ops : List Op) :
    ∀ g, (runOpsG g ops).works =
      mergeAll overwriteV g.works (worksAsg ops) := by
  induction ops with
  | nil => intro g; rfl
  | cons op t ih =>
      intro g
      cases op <;>
        simp [runOpsG, List.foldl_cons, runOp, worksAsg, mergeAll,
          List.filterMap_cons] <;>
        simpa [runOpsG, worksAsg, mergeAll] using ih _

theorem runOpsG_tech (ops : List Op) :
    ∀ g, (runOpsG g ops).tech = mergeAll keepV g.tech (techAsg ops) := by
  induction ops with
  | nil => intro g; rfl
  | cons op t ih =>
      intro g
      cases op <;>
        simp [runOpsG, List.foldl_cons, runOp, techAsg, mergeAll,
          List.filterMap_cons] <;>
        simpa [runOpsG, techAsg, mergeAll] using ih _

theorem runOpsS_fst (ops : List Op) :
    ∀ p : Graph × UpsertStats, (runOpsS p ops).1 = runOpsG p.1 ops := by
  induction ops with
  | nil => intro p; rfl
  | cons op t ih =>
      intro p
      simp only [runOpsS, List.foldl_cons, runOpsG]
      exact ih (runOpS p op)

/-! ### Presence monotonicity and completeness -/

theorem opPresentB_runOp_mono (g : Graph) (op op' : Op)
    (h : opPresentB g op' = true) : opPresentB (runOp g op) op' = true := by
  cases op <;> cases op' <;>
    simp only [runOp, opPresentB, decide_eq_true_eq, mem_keysOf_mergeAt] at h ⊢ <;>
    first
    | exact h
    | exact Or.inl h

theorem opPresentB_runOp_self (g : Graph) (op : Op) :
    opPresentB (runOp g op) op = true := by
  cases op <;> simp [runOp, opPresentB, mem_keysOf_mergeAt]

theorem opPresentB_runOpsG_mono (ops : List Op) :
    ∀ (g : Graph) (op : Op), opPresentB g op = true →
      opPresentB (runOpsG g ops) op = true := by
  induction ops with
  | nil => intro g op h; exact h
  | cons o t ih =>
      intro g op h
      exact ih (runOp g o) op (opPresentB_runOp_mono g o op h)

theorem opPresentB_runOpsG_of_mem (ops : List Op) :
    ∀ (g : Graph) (op : Op), op ∈ ops →
      opPresentB (runOpsG g ops) op = true := by
  induction ops with
  | nil => intro g op h; simp at h
  | cons o t ih =>
      intro g op h
      rcases List.mem_cons.1 h with hh | hh
      · subst hh
        exact opPresentB_runOpsG_mono t _ op (opPresentB_runOp_self g op)
      · exact ih (runOp g o) op hh

/-- The number of node merges in an operation list. -/
def nodeOpCount (ops : List Op) : Nat := (ops.filter opIsNode).length

/-- The number of edge merges in an operation list. -/
def edgeOpCount (ops : List Op) : Nat :=
  (ops.filter (fun op => !opIsNode op)).length

theorem runOpsS_present_stats (ops : List Op) :
    ∀ (g : Graph) (s : UpsertStats), (∀ op ∈ ops, opPresentB g op = true) →
      (runOpsS (g, s) ops).2 =
        ⟨s.nodesInserted, s.nodesExisting + nodeOpCount ops,
         s.edgesInserted, s.edgesExisting + edgeOpCount ops⟩ := by
  induction ops with
  | nil =>
      intro g s _
      simp [runOpsS, nodeOpCount, edgeOpCount]
  | cons op t ih =>
      intro g s h
      have hop := h op (List.mem_cons_self op t)
      have ht : ∀ op' ∈ t, opPresentB (runOp g op) op' = true := fun op' hm =>
        opPresentB_runOp_mono g op op' (h op' (List.mem_cons_of_mem op hm))
      simp only [runOpsS, List.foldl_cons]
      have hstep : runOpS (g, s) op =
          (runOp g op, bumpStats s (opIsNode op) (opPresentB g op)) := rfl
      rw [hstep, hop]
      have := ih (runOp g op) (bumpStats s (opIsNode op) true) ht
      rw [show List.foldl runOpS (runOp g op, bumpStats s (opIsNode op) true) t =
        runOpsS (runOp g op, bumpStats s (opIsNode op) true) t from rfl, this]
      obtain ⟨a, b, c, d⟩ := s
      cases hn : opIsNode op <;>
        simp [bumpStats, hn, nodeOpCount, edgeOpCount, List.filter_cons] <;>
        omega

/-! ### State idempotence of a full re-run -/

theorem runOpsG_replay (g : Graph) (ops : List Op) :
    runOpsG (runOpsG g ops) ops = runOpsG g ops := by
  apply Graph.ext
  · rw [runOpsG_people ops, runOpsG_people ops g, mergeAll_replay_keep]
  · rw [runOpsG_skills ops, runOpsG_skills ops g, mergeAll_replay_keep]
  · rw [runOpsG_projects ops, runOpsG_projects ops g, mergeAll_replay_orDflt]
  · rw [runOpsG_hard ops, runOpsG_hard ops g, mergeAll_replay_keep]
  · rw [runOpsG_soft ops, runOpsG_soft ops g, mergeAll_replay_keep]
  · rw [runOpsG_works ops, runOpsG_works ops g, mergeAll_replay_overwrite]
  · rw [runOpsG_tech ops, runOpsG_tech ops g, mergeAll_replay_keep]

/-- C1: Ingestion is idempotent — for every valid extraction result,
ingesting it twice through the Graph Upsert Engine yields a graph state
identical to ingesting it once, the second run's stats report zero
nodes/edges inserted (every merge is counted as already-existing), and
re-ingesting the same normalized name never creates a duplicate node
(nodup person keys are preserved). -/
theorem ingest_idempotent (g : Graph) (e : ExtractionResult)
    (h : (keysOf g.people).Nodup) :
    (ingest (ingest g e).1 e).1 = (ingest g e).1
    ∧ (ingest (ingest g e).1 e).2.nodesInserted = 0
    ∧ (ingest (ingest g e).1 e).2.edgesInserted = 0
    ∧ (ingest (ingest g e).1 e).2.nodesExisting = nodeOpCount (batchOps e)
    ∧ (ingest (ingest g e).1 e).2.edgesExisting = edgeOpCount (batchOps e)
    ∧ (keysOf (ingest g e).1.people).Nodup := by
  have h1 : (ingest g e).1 = runOpsG g (batchOps e) := runOpsS_fst (batchOps e) _
  have h2 : (ingest (ingest g e).1 e).1 = runOpsG (ingest g e).1 (batchOps e) :=
    runOpsS_fst (batchOps e) _
  have hpres : ∀ op ∈ batchOps e, opPresentB (ingest g e).1 op = true := by
    rw [h1]
    exact fun op hm => opPresentB_runOpsG_of_mem (batchOps e) g op hm
  have hstats := runOpsS_present_stats (batchOps e) (ingest g e).1 zeroStats hpres
  have hstats' : (ingest (ingest g e).1 e).2 =
      ⟨0, nodeOpCount (batchOps e), 0, edgeOpCount (batchOps e)⟩ := by
    simpa [zeroStats] using hstats
  refine ⟨?_, ?_, ?_, ?_, ?_, ?_⟩
  · rw [h2, h1, runOpsG_replay, ← h1]
  · rw [hstats']
  · rw [hstats']
  · rw [hstats']
  · rw [hstats']
  · rw [h1, runOpsG_people (batchOps e) g]
    exact nodup_keysOf_mergeAll keepV _ h

/-- A small concrete extraction result used by witnesses. -/
def sampleExtraction : ExtractionResult :=
  ⟨[⟨"Sarah Chen", ["React"], ["Mentoring"],
     [⟨"API Migration", "Lead", none⟩]⟩],
   [⟨"API Migration", some "migrate the API", ["Python"]⟩]⟩

theorem ingest_idempotent_witness :
    (keysOf emptyStore.people).Nodup
    ∧ ((ingest (ingest emptyStore sampleExtraction).1 sampleExtraction).1 =
        (ingest emptyStore sampleExtraction).1
      ∧ (ingest (ingest emptyStore sampleExtraction).1 sampleExtraction).2.nodesInserted = 0
      ∧ (ingest (ingest emptyStore sampleExtraction).1 sampleExtraction).2.edgesInserted = 0
      ∧ (ingest (ingest emptyStore sampleExtraction).1 sampleExtraction).2.nodesExisting =
          nodeOpCount (batchOps sampleExtraction)
      ∧ (ingest (ingest emptyStore sampleExtraction).1 sampleExtraction).2.edgesExisting =
          edgeOpCount (batchOps sampleExtraction)
      ∧ (keysOf (ingest emptyStore sampleExtraction).1.people).Nodup) :=
  ⟨by simp [emptyStore, keysOf],
   ingest_idempotent emptyStore sampleExtraction (by simp [emptyStore, keysOf])⟩

/-! ## Atomic per-document commit (spec 4.3 and section 5)

Modelled from the spec: the graph store applies the whole batch for one
document as a single atomic unit via its transaction discipline.  Observers
read only the committed state; an in-progress ingest transaction works on a
private copy, commits only once every merge of the batch has been applied,
and aborts (`StorageUnavailable`) by discarding the working copy.
-/

/-- Modelled from the spec: a transactional graph store.  `committed` is the
observable state; `pending` is an in-progress ingest transaction holding the
working state and the remaining merge operations of its batch. -/
structure Store where
  committed : Graph
  pending : Option (Graph × List Op)

/-- Events of the store: start an ingest transaction for one document's
batch, apply its next merge, commit a finished batch, or abort. -/
inductive StoreEv
  | beginTxn (e : ExtractionResult)
  | stepOp
  | commitTxn
  | abortTxn

/-- Modelled from the spec: one store transition.  A commit is accepted only
when every merge of the batch has been applied; an abort discards the
working copy and leaves the committed state unchanged. -/
def stepStore (s : Store) : StoreEv → Store
  | .beginTxn e =>
      match s.pending with
      | none => { s with pending := some (s.committed, batchOps e) }
      | some _ => s
  | .stepOp =>
      match s.pending with
      | some (gw, op :: rest) => { s with pending := some (runOp gw op, rest) }
      | _ => s
  | .commitTxn =>
      match s.pending with
      | some (gw, []) => { committed := gw, pending := none }
      | _ => s
  | .abortTxn => { s with pending := none }

/-- Run a sequence of store events. -/
def runStore (s : Store) (es : List StoreEv) : Store := es.foldl stepStore s

/-- State reached by fully ingesting one document's batch. -/
def applyBatch (g : Graph) (e : ExtractionResult) : Graph := (ingest g e).1

/-- State reached by fully ingesting a sequence of documents. -/
def applyBatches (g : Graph) (bs : List ExtractionResult) : Graph :=
  bs.foldl applyBatch g

theorem runOpsG_append (g : Graph) (l₁ l₂ : List Op) :
    runOpsG g (l₁ ++ l₂) = runOpsG (runOpsG g l₁) l₂ :=
  List.foldl_append runOp g l₁ l₂

theorem applyBatch_eq_runOpsG (g : Graph) (e : ExtractionResult) :
    applyBatch g e = runOpsG g (batchOps e) :=
  runOpsS_fst (batchOps e) _

/-- The reachability invariant of the transactional store: the committed
state is a fold of complete batches, and any pending working state is the
committed state advanced by a prefix of some batch. -/
def StoreInv (g0 : Graph) (s : Store) : Prop :=
  (∃ bs, s.committed = applyBatches g0 bs)
  ∧ (∀ gw rest, s.pending = some (gw, rest) →
      ∃ e done, batchOps e = done ++ rest ∧ gw = runOpsG s.committed done)

theorem stepStore_inv (g0 : Graph) (s : Store) (ev : StoreEv)
    (h : StoreInv g0 s) : StoreInv g0 (stepStore s ev) := by
  obtain ⟨gc, pend⟩ := s
  obtain ⟨⟨bs, hbs⟩, hpend⟩ := h
  cases ev with
  | beginTxn e =>
      cases pend with
      | none =>
          refine ⟨⟨bs, hbs⟩, ?_⟩
          intro gw rest heq
          simp only [stepStore, Option.some.injEq, Prod.mk.injEq] at heq
          exact ⟨e, [], by simp [← heq.2], heq.1.symm⟩
      | some p => exact ⟨⟨bs, hbs⟩, hpend⟩
  | stepOp =>
      cases pend with
      | none => exact ⟨⟨bs, hbs⟩, hpend⟩
      | some p =>
          obtain ⟨gw, rest⟩ := p
          cases rest with
          | nil => exact ⟨⟨bs, hbs⟩, hpend⟩
          | cons op rest' =>
              refine ⟨⟨bs, hbs⟩, ?_⟩
              intro gw' rest'' heq
              simp only [stepStore, Option.some.injEq, Prod.mk.injEq] at heq
              obtain ⟨e, done, hdone, hgw⟩ := hpend gw (op :: rest') rfl
              refine ⟨e, done ++ [op], ?_, ?_⟩
              · rw [hdone, ← heq.2]
                simp
              · rw [← heq.1, runOpsG_append, hgw]
                rfl
  | commitTxn =>
      cases pend with
      | none => exact ⟨⟨bs, hbs⟩, hpend⟩
      | some p =>
          obtain ⟨gw, rest⟩ := p
          cases rest with
          | cons op rest' => exact ⟨⟨bs, hbs⟩, hpend⟩
          | nil =>
              obtain ⟨e, done, hdone, hgw⟩ := hpend gw [] rfl
              simp only [List.append_nil] at hdone
              refine ⟨⟨bs ++ [e], ?_⟩, ?_⟩
              · show gw = applyBatches g0 (bs ++ [e])
                rw [hgw, ← hdone, hbs]
                simp [applyBatches, List.foldl_append, applyBatch_eq_runOpsG]
              · intro gw' rest'' heq
                simp [stepStore] at heq
  | abortTxn =>
      exact ⟨⟨bs, hbs⟩, by intro gw rest heq; simp [stepStore] at heq⟩

theorem runStore_inv (g0 : Graph) (es : List StoreEv) :
    ∀ s : Store, StoreInv g0 s → StoreInv g0 (runStore s es) := by
  induction es with
  | nil => intro s h; exact h
  | cons ev t ih =>
      intro s h
      exact ih (stepStore s ev) (stepStore_inv g0 s ev h)

/-- C2: Ingestion of one document's batch is atomic — every observable
(committed) state of the transactional store is a fold of complete batches,
so no observer ever sees a half-applied batch, and an abort
(`StorageUnavailable`) leaves the committed graph state unchanged. -/
theorem ingest_atomic (g0 : Graph) (es : List StoreEv) :
    (∃ bs, (runStore ⟨g0, none⟩ es).committed = applyBatches g0 bs)
    ∧ (∀ s : Store, (stepStore s StoreEv.abortTxn).committed = s.committed) := by
  constructor
  · have := runStore_inv g0 es ⟨g0, none⟩
      ⟨⟨[], rfl⟩, by intro gw rest heq; simp at heq⟩
    exact this.1
  · intro s; rfl

/-! ## Ranking & Shaper, skill/tech family (spec 4.6)

Modelled from the spec: the Ranking & Shaper is not under src/; the
skill-search ranking policy — descending count of matched skills, ties
broken by normalized name ascending — is embedded from the specification.
-/

/-- Whether a person (by key) has a skill (by key), hard or soft. -/
def hasSkillB (g : Graph) (p s : String) : Bool :=
  decide ((p, s) ∈ keysOf g.hard) || decide ((p, s) ∈ keysOf g.soft)

/-- The number of intent skills matched by a person. -/
def matchCount (g : Graph) (p : String) (skills : List String) : Nat :=
  (skills.filter fun s => hasSkillB g p (normKey s)).length

/-- Matched people with their match counts, in store order. -/
def skillCandidates (g : Graph) (skills : List String) : List (String × Nat) :=
  g.people.filterMap fun pr =>
    if matchCount g pr.1 skills = 0 then none
    else some (pr.1, matchCount g pr.1 skills)

/-- Ranking comparison: descending match count, ties broken by normalized
name ascending. -/
def rankLE (a b : String × Nat) : Bool :=
  decide (b.2 < a.2) || (decide (a.2 = b.2) && decide (a.1 ≤ b.1))

/-- The ranking comparison, as a relation. -/
def RLE (a b : String × Nat) : Prop := rankLE a b = true

/-- Strict version of the ranking order. -/
def rankStrict (a b : String × Nat) : Prop :=
  b.2 < a.2 ∨ (a.2 = b.2 ∧ a.1 < b.1)

/-- Insert into an already ranked list. -/
def insertRanked (x : String × Nat) : List (String × Nat) → List (String × Nat)
  | [] => [x]
  | y :: t => if rankLE x y then x :: y :: t else y :: insertRanked x t

/-- Deterministic insertion sort by the ranking comparison. -/
def sortRanked (l : List (String × Nat)) : List (String × Nat) :=
  l.foldr insertRanked []

/-- Modelled from the spec (4.6): the ranked result list of a skill/tech
search — matched people ordered by descending count of matched skills, ties
broken by normalized name ascending. -/
def rankResults (g : Graph) (skills : List String) : List (String × Nat) :=
  sortRanked (skillCandidates g skills)

theorem rankLE_total (a b : String × Nat) :
    rankLE a b = true ∨ rankLE b a = true := by
  simp only [rankLE, Bool.or_eq_true, Bool.and_eq_true, decide_eq_true_eq]
  rcases lt_trichotomy a.2 b.2 with h | h | h
  · exact Or.inr (Or.inl h)
  · rcases le_total a.1 b.1 with hle | hle
    · exact Or.inl (Or.inr ⟨h, hle⟩)
    · exact Or.inr (Or.inr ⟨h.symm, hle⟩)
  · exact Or.inl (Or.inl h)

theorem rankLE_trans {a b c : String × Nat} (h1 : rankLE a b = true)
    (h2 : rankLE b c = true) : rankLE a c = true := by
  simp only [rankLE, Bool.or_eq_true, Bool.and_eq_true, decide_eq_true_eq]
    at h1 h2 ⊢
  rcases h1 with h1 | ⟨h1e, h1s⟩ <;> rcases h2 with h2 | ⟨h2e, h2s⟩
  · exact Or.inl (lt_trans h2 h1)
  · exact Or.inl (h2e ▸ h1)
  · exact Or.inl (by rw [h1e]; exact h2)
  · exact Or.inr ⟨h1e.trans h2e, le_trans h1s h2s⟩

theorem rankLE_antisymm {a b : String × Nat} (h1 : rankLE a b = true)
    (h2 : rankLE b a = true) : a = b := by
  simp only [rankLE, Bool.or_eq_true, Bool.and_eq_true, decide_eq_true_eq]
    at h1 h2
  rcases h1 with h1 | ⟨h1e, h1s⟩ <;> rcases h2 with h2 | ⟨h2e, h2s⟩
  · exact absurd h1 (lt_asymm h2)
  · omega
  · omega
  · exact Prod.ext (le_antisymm h1s h2s) h1e

instance : IsAntisymm (String × Nat) RLE :=
  ⟨fun _ _ h1 h2 => rankLE_antisymm h1 h2⟩

theorem mem_insertRanked (z x : String × Nat) (l : List (String × Nat)) :
    z ∈ insertRanked x l ↔ z = x ∨ z ∈ l := by
  induction l with
  | nil => simp [insertRanked]
  | cons y t ih =>
      by_cases hr : rankLE x y <;> simp [insertRanked, hr, ih]
      tauto

theorem perm_insertRanked (x : String × Nat) (l : List (String × Nat)) :
    (insertRanked x l).Perm (x :: l) := by
  induction l with
  | nil => exact List.Perm.refl _
  | cons y t ih =>
      by_cases hr : rankLE x y
      · simp [insertRanked, hr]
      · simp only [insertRanked, if_neg hr]
        exact (ih.cons y).trans (List.Perm.swap x y t)

theorem perm_sortRanked (l : List (String × Nat)) : (sortRanked l).Perm l := by
  induction l with
  | nil => exact List.Perm.refl _
  | cons x t ih =>
      exact (perm_insertRanked x (sortRanked t)).trans (ih.cons x)

theorem pairwise_insertRanked (x : String × Nat) {l : List (String × Nat)}
    (h : List.Pairwise RLE l) : List.Pairwise RLE (insertRanked x l) := by
  induction l with
  | nil => simp [insertRanked, List.pairwise_cons]
  | cons y t ih =>
      rw [List.pairwise_cons] at h
      by_cases hr : rankLE x y
      · simp only [insertRanked, if_pos hr]
        rw [List.pairwise_cons]
        constructor
        · intro z hz
          rcases List.mem_cons.1 hz with hh | hh
          · subst hh; exact hr
          · exact rankLE_trans hr (h.1 z hh)
        · rw [List.pairwise_cons]
          exact h
      · have hyx : rankLE y x = true := by
          rcases rankLE_total x y with ht | ht
          · exact absurd ht hr
          · exact ht
        simp only [insertRanked, if_neg hr]
        rw [List.pairwise_cons]
        constructor
        · intro z hz
          rcases (mem_insertRanked z x t).1 hz with hh | hh
          · subst hh; exact hyx
          · exact h.1 z hh
        · exact ih h.2

theorem pairwise_sortRanked (l : List (String × Nat)) :
    List.Pairwise RLE (sortRanked l) := by
  induction l with
  | nil => exact List.Pairwise.nil
  | cons x t ih => exact pairwise_insertRanked x ih

theorem candidates_sublist_aux (g : Graph) (skills : List String)
    (l : List (String × String)) :
    ((l.filterMap fun pr =>
        if matchCount g pr.1 skills = 0 then none
        else some (pr.1, matchCount g pr.1 skills)).map Prod.fst).Sublist
      (l.map Prod.fst) := by
  induction l with
  | nil => simp
  | cons pr t ih =>
      by_cases hc : matchCount g pr.1 skills = 0
      · simp only [List.filterMap_cons, hc, if_pos rfl, List.map_cons]
        exact ih.cons pr.1
      · simp only [List.filterMap_cons, if_neg hc, List.map_cons]
        exact ih.cons₂ pr.1

theorem skillCandidates_keys_sublist (g : Graph) (skills : List String) :
    ((skillCandidates g skills).map Prod.fst).Sublist (keysOf g.people) :=
  candidates_sublist_aux g skills g.people

/-- The number of intent technologies used by a project. -/
def techMatchCount (g : Graph) (pk : String) (techs : List String) : Nat :=
  (techs.filter fun t => decide ((pk, normKey t) ∈ keysOf g.tech)).length

/-- Matched projects with their tech-match counts, in store order. -/
def projectCandidates (g : Graph) (techs : List String) : List (String × Nat) :=
  g.projects.filterMap fun pr =>
    if techMatchCount g pr.1 techs = 0 then none
    else some (pr.1, techMatchCount g pr.1 techs)

/-- Modelled from the spec (4.6): tech search ranking — matched projects
ordered by descending count of matched technologies, ties broken by
normalized name ascending. -/
def rankProjectsByTech (g : Graph) (techs : List String) : List (String × Nat) :=
  sortRanked (projectCandidates g techs)

theorem project_candidates_sublist_aux (g : Graph) (techs : List String)
    (l : List (String × Option String)) :
    ((l.filterMap fun pr =>
        if techMatchCount g pr.1 techs = 0 then none
        else some (pr.1, techMatchCount g pr.1 techs)).map Prod.fst).Sublist
      (l.map Prod.fst) := by
  induction l with
  | nil => simp
  | cons pr t ih =>
      by_cases hc : techMatchCount g pr.1 techs = 0
      · simp only [List.filterMap_cons, hc, if_pos rfl, List.map_cons]
        exact ih.cons pr.1
      · simp only [List.filterMap_cons, if_neg hc, List.map_cons]
        exact ih.cons₂ pr.1

theorem projectCandidates_keys_sublist (g : Graph) (techs : List String) :
    ((projectCandidates g techs).map Prod.fst).Sublist (keysOf g.projects) :=
  project_candidates_sublist_aux g techs g.projects

theorem sortRanked_spec (cand : List (String × Nat))
    (h : (cand.map Prod.fst).Nodup) :
    List.Pairwise RLE (sortRanked cand)
    ∧ (sortRanked cand).Perm cand
    ∧ (∀ l, l.Perm (sortRanked cand) → List.Pairwise RLE l →
        l = sortRanked cand)
    ∧ List.Pairwise rankStrict (sortRanked cand) := by
  have hs : List.Pairwise RLE (sortRanked cand) := pairwise_sortRanked cand
  have hp : (sortRanked cand).Perm cand := perm_sortRanked cand
  refine ⟨hs, hp, ?_, ?_⟩
  · intro l hlp hls
    exact List.eq_of_perm_of_sorted hlp hls hs
  · have hrank : ((sortRanked cand).map Prod.fst).Nodup :=
      ((hp.map Prod.fst).symm).nodup h
    have hne : List.Pairwise (fun a b : String × Nat => a.1 ≠ b.1)
        (sortRanked cand) := List.pairwise_map.1 hrank
    refine (hs.and hne).imp ?_
    intro a b hab
    obtain ⟨hle, hfst⟩ := hab
    simp only [RLE, rankLE, Bool.or_eq_true, Bool.and_eq_true,
      decide_eq_true_eq] at hle
    rcases hle with hlt | ⟨heq, hstr⟩
    · exact Or.inl hlt
    · exact Or.inr ⟨heq, lt_of_le_of_ne hstr hfst⟩

/-- C3: For every fixed graph state and every skill/tech-search intent,
the ranked results — people for a skill search, projects for a tech
search — are ordered by descending count of matched skills/technologies
with ties broken by normalized name ascending (non-strictly and, with
duplicate-free store keys, strictly), the results are exactly the matched
candidates, and the ordering is unique: any reordering of the output that
is also sorted is equal to it, so repeated executions yield an identical
ordering including tie-break order. -/
theorem ranking_deterministic (g : Graph) (skills techs : List String)
    (hpe : (keysOf g.people).Nodup) (hpr : (keysOf g.projects).Nodup) :
    (List.Pairwise RLE (rankResults g skills)
      ∧ (rankResults g skills).Perm (skillCandidates g skills)
      ∧ (∀ l, l.Perm (rankResults g skills) → List.Pairwise RLE l →
          l = rankResults g skills)
      ∧ List.Pairwise rankStrict (rankResults g skills))
    ∧ (List.Pairwise RLE (rankProjectsByTech g techs)
      ∧ (rankProjectsByTech g techs).Perm (projectCandidates g techs)
      ∧ (∀ l, l.Perm (rankProjectsByTech g techs) → List.Pairwise RLE l →
          l = rankProjectsByTech g techs)
      ∧ List.Pairwise rankStrict (rankProjectsByTech g techs)) :=
  ⟨sortRanked_spec (skillCandidates g skills)
     ((skillCandidates_keys_sublist g skills).nodup hpe),
   sortRanked_spec (projectCandidates g techs)
     ((projectCandidates_keys_sublist g techs).nodup hpr)⟩

/-- A small concrete graph used by the ranking witness: two people with the
same single matched skill and two projects with the same single matched
technology, so the tie-break applies in both ranking families. -/
def rankDemoGraph : Graph :=
  ⟨[("alice", "Alice"), ("bob", "Bob")], [("react", "hard")],
   [("alpha", none), ("beta", none)],
   [(("alice", "react"), ()), (("bob", "react"), ())], [], [],
   [(("alpha", "react"), ()), (("beta", "react"), ())]⟩

theorem ranking_deterministic_witness :
    (keysOf rankDemoGraph.people).Nodup
    ∧ (keysOf rankDemoGraph.projects).Nodup
    ∧ ((List.Pairwise RLE (rankResults rankDemoGraph ["React"])
        ∧ (rankResults rankDemoGraph ["React"]).Perm
            (skillCandidates rankDemoGraph ["React"])
        ∧ (∀ l, l.Perm (rankResults rankDemoGraph ["React"]) →
            List.Pairwise RLE l → l = rankResults rankDemoGraph ["React"])
        ∧ List.Pairwise rankStrict (rankResults rankDemoGraph ["React"]))
      ∧ (List.Pairwise RLE (rankProjectsByTech rankDemoGraph ["React"])
        ∧ (rankProjectsByTech rankDemoGraph ["React"]).Perm
            (projectCandidates rankDemoGraph ["React"])
        ∧ (∀ l, l.Perm (rankProjectsByTech rankDemoGraph ["React"]) →
            List.Pairwise RLE l →
            l = rankProjectsByTech rankDemoGraph ["React"])
        ∧ List.Pairwise rankStrict (rankProjectsByTech rankDemoGraph ["React"]))) :=
  ⟨by decide, by decide,
   ranking_deterministic rankDemoGraph ["React"] ["React"] (by decide) (by decide)⟩

/-! ## Intent model and Query Planner (spec 4.4, 4.5)

Modelled from the spec: the Intent Parser's normalization and the Query
Planner are not under src/; the closed intent enumeration, the fixed
template table, the generic-keyword fallback and the explicit no-op plan
are embedded from the specification.
-/

/-- The closed enumeration of recognized intent types, plus the generic
fallback variant carrying the original unrecognized label. -/
inductive IntentType
  | findPersonBySkill
  | findProjectByTech
  | findCollaborators
  | findByKeyword
  | fallback (original : String)
  deriving DecidableEq

/-- A validated intent: type plus extracted parameters. -/
structure Intent where
  type : IntentType
  skills : List String
  keywords : List String
  target_person : Option String
  deriving DecidableEq

/-- The fixed set of graph traversal templates. -/
inductive TemplateId
  | personBySkill
  | projectByTech
  | collaborators
  | keywordSearch
  | noop
  deriving DecidableEq

/-- A query plan: selected template, bound parameters, and the literal
query text for audit/debug display. -/
structure QueryPlan where
  template : TemplateId
  params : List (String × String)
  queryText : String
  deriving DecidableEq

/-- The fixed, pre-authored text of each template. -/
def templateText : TemplateId → String
  | .personBySkill =>
      "MATCH (p:Person)-[:HAS_HARD_SKILL|HAS_SOFT_SKILL]->(s:Skill) WHERE s.name IN skills RETURN p.name ORDER BY matches DESC, p.name ASC"
  | .projectByTech =>
      "MATCH (pr:Project)-[:USES_TECH]->(s:Skill) WHERE s.name IN techs RETURN pr.name ORDER BY matches DESC, pr.name ASC"
  | .collaborators =>
      "MATCH (p:Person)-[:WORKS_ON]->(pr:Project)<-[:WORKS_ON]-(t:Person) WHERE t.name = target RETURN p.name ORDER BY shared DESC, p.name ASC"
  | .keywordSearch =>
      "MATCH (p:Person) WHERE some field of p matches a keyword RETURN p.name ORDER BY hits DESC, p.name ASC"
  | .noop => "RETURN no rows"

/-- Render the bound parameters for the audit text. -/
def renderParams (ps : List (String × String)) : String :=
  String.intercalate ", " (ps.map fun p => p.1 ++ "=" ++ p.2)

/-- The literal query text: fixed template text plus bound parameters. -/
def renderQuery (t : TemplateId) (ps : List (String × String)) : String :=
  templateText t ++ " -- params: " ++ renderParams ps

/-- Keyword parameters extracted from an intent. -/
def keywordParams (i : Intent) : List (String × String) :=
  i.keywords.map fun k => ("keyword", k)

/-- Skill parameters extracted from an intent. -/
def skillParams (i : Intent) : List (String × String) :=
  i.skills.map fun s => ("skill", s)

/-- Technology parameters extracted from an intent. -/
def techParams (i : Intent) : List (String × String) :=
  i.skills.map fun s => ("tech", s)

/-- Modelled from the spec (4.5): the generic-keyword fallback plan — the
keyword template over whatever keywords are present, or the explicit no-op
plan when none exist. -/
def keywordFallbackPlan (i : Intent) : QueryPlan :=
  if i.keywords.isEmpty then
    ⟨TemplateId.noop, [], renderQuery TemplateId.noop []⟩
  else
    ⟨TemplateId.keywordSearch, keywordParams i,
     renderQuery TemplateId.keywordSearch (keywordParams i)⟩

/-- Modelled from the spec (4.5): the Query Planner — a pure mapping from a
validated intent to a template selected by type, bound parameters, and the
literal query text; missing required parameters fall back to the
generic-keyword template. -/
def planQuery (i : Intent) : QueryPlan :=
  match i.type with
  | .findPersonBySkill =>
      if i.skills.isEmpty then keywordFallbackPlan i
      else ⟨TemplateId.personBySkill, skillParams i,
        renderQuery TemplateId.personBySkill (skillParams i)⟩
  | .findProjectByTech =>
      if i.skills.isEmpty then keywordFallbackPlan i
      else ⟨TemplateId.projectByTech, techParams i,
        renderQuery TemplateId.projectByTech (techParams i)⟩
  | .findCollaborators =>
      match i.target_person with
      | some t => ⟨TemplateId.collaborators, [("target_person", t)],
          renderQuery TemplateId.collaborators [("target_person", t)]⟩
      | none => keywordFallbackPlan i
  | .findByKeyword => keywordFallbackPlan i
  | .fallback _ => keywordFallbackPlan i

/-- The planner as seen by the graph store: it returns its plan and passes
the store state through untouched. -/
def planQueryS (i : Intent) (g : Graph) : QueryPlan × Graph := (planQuery i, g)

theorem keywordFallbackPlan_text (i : Intent) :
    (keywordFallbackPlan i).queryText =
      renderQuery (keywordFallbackPlan i).template (keywordFallbackPlan i).params := by
  unfold keywordFallbackPlan
  split_ifs <;> rfl

theorem planQuery_text (i : Intent) :
    (planQuery i).queryText =
      renderQuery (planQuery i).template (planQuery i).params := by
  obtain ⟨ty, sk, kw, tp⟩ := i
  cases ty <;> simp only [planQuery] <;> try (cases tp)
  all_goals
    first
    | (split_ifs <;> first | rfl | exact keywordFallbackPlan_text _)
    | rfl
    | exact keywordFallbackPlan_text _

/-- C4: The Query Planner is pure and deterministic — it leaves the graph
store untouched, its selected template, bound parameters and literal query
text do not depend on the store state, and the literal query text is fully
determined by the selected template and bound parameters. -/
theorem planner_pure (i : Intent) (g g' : Graph) :
    (planQueryS i g).2 = g
    ∧ (planQueryS i g).1 = (planQueryS i g').1
    ∧ (planQueryS i g).1 = planQuery i
    ∧ (planQuery i).queryText =
        renderQuery (planQuery i).template (planQuery i).params :=
  ⟨rfl, rfl, rfl, planQuery_text i⟩

/-! ## Query execution and the search path (spec 4.4, 4.6)

Modelled from the spec: execution of a bound plan against the graph store,
per ranking family, and the full query path with its external-call trace.
-/

/-- The values bound under a given parameter tag. -/
def paramValues (ps : List (String × String)) (tag : String) : List String :=
  ps.filterMap fun p => if p.1 = tag then some p.2 else none

/-- The project keys a person works on. -/
def personProjects (g : Graph) (p : String) : List String :=
  g.works.filterMap fun e => if e.1.1 = p then some e.1.2 else none

/-- The number of projects shared between the target person and another. -/
def sharedProjectCount (g : Graph) (t p : String) : Nat :=
  ((personProjects g p).filter fun x => decide (x ∈ personProjects g t)).length

/-- Other people sharing at least one project with the target person. -/
def collaboratorCandidates (g : Graph) (t : String) : List (String × Nat) :=
  g.people.filterMap fun pr =>
    if pr.1 = normKey t then none
    else if sharedProjectCount g (normKey t) pr.1 = 0 then none
    else some (pr.1, sharedProjectCount g (normKey t) pr.1)

/-- Modelled from the spec (4.6): collaborator search ranking. -/
def rankCollaborators (g : Graph) (t : String) : List (String × Nat) :=
  sortRanked (collaboratorCandidates g t)

/-- The skill keys a person has (hard or soft). -/
def personSkills (g : Graph) (p : String) : List String :=
  (g.hard.filterMap fun e => if e.1.1 = p then some e.1.2 else none) ++
    (g.soft.filterMap fun e => if e.1.1 = p then some e.1.2 else none)

/-- The normalized roles a person holds. -/
def personRoles (g : Graph) (p : String) : List String :=
  g.works.filterMap fun e => if e.1.1 = p then some (normKey e.2) else none

/-- Whether a keyword matches one of the person's fields
(name, skill, project, role). -/
def keywordHit (g : Graph) (p kw : String) : Bool :=
  decide (normKey kw = p) || decide (normKey kw ∈ personSkills g p) ||
    decide (normKey kw ∈ personProjects g p) ||
    decide (normKey kw ∈ personRoles g p)

/-- The number of keywords matching some field of the person. -/
def keywordScore (g : Graph) (p : String) (kws : List String) : Nat :=
  (kws.filter fun kw => keywordHit g p kw).length

/-- People matching at least one keyword, in store order. -/
def keywordCandidates (g : Graph) (kws : List String) : List (String × Nat) :=
  g.people.filterMap fun pr =>
    if keywordScore g pr.1 kws = 0 then none
    else some (pr.1, keywordScore g pr.1 kws)

/-- Modelled from the spec (4.6): generic keyword search ranking. -/
def rankKeyword (g : Graph) (kws : List String) : List (String × Nat) :=
  sortRanked (keywordCandidates g kws)

/-- Modelled from the spec (4.6): execute a bound plan against the graph
store; the no-op plan yields zero results without touching the store. -/
def execPlan (g : Graph) (p : QueryPlan) : List (String × Nat) :=
  match p.template with
  | .personBySkill => rankResults g (paramValues p.params "skill")
  | .projectByTech => rankProjectsByTech g (paramValues p.params "tech")
  | .collaborators =>
      match paramValues p.params "target_person" with
      | t :: _ => rankCollaborators g t
      | [] => []
  | .keywordSearch => rankKeyword g (paramValues p.params "keyword")
  | .noop => []

/-- The API-facing label of an intent type. -/
def intentLabel : IntentType → String
  | .findPersonBySkill => "find_person_by_skill"
  | .findProjectByTech => "find_project_by_technology"
  | .findCollaborators => "find_collaborators_of_person"
  | .findByKeyword => "find_person_by_role_or_keyword"
  | .fallback _ => "generic_fallback"

/-- The search-facing response shape (per the frontend SearchResponse
interface: intent label, results, result count, explanation, literal
query text). -/
structure SearchResponse where
  intent : String
  results : List (String × Nat)
  result_count : Nat
  explanation : String
  cypher_query : String
  deriving DecidableEq

/-- A short natural-language explanation of intent and result count. -/
def explanationFor (label : String) (n : Nat) : String :=
  "Intent " ++ label ++ " matched " ++ toString n ++ " results"

/-- The recognized raw intent type strings (closed enumeration, spec 4.4). -/
def recognizedTypes : List String :=
  ["find_person_by_skill", "find_project_by_technology",
   "find_collaborators_of_person", "find_person_by_role_or_keyword"]

/-- A raw intent object as validated from language-model output. -/
structure RawIntent where
  type : String
  skills : List String
  keywords : List String
  target_person : Option String
  deriving DecidableEq

/-- Modelled from the spec (4.4): normalize a raw type string to the closed
intent enumeration; an unrecognized or missing type becomes the generic
fallback variant carrying the original label. -/
def parseIntentType (t : String) : IntentType :=
  if t = "find_person_by_skill" then .findPersonBySkill
  else if t = "find_project_by_technology" then .findProjectByTech
  else if t = "find_collaborators_of_person" then .findCollaborators
  else if t = "find_person_by_role_or_keyword" then .findByKeyword
  else .fallback t

/-- Normalize a whole raw intent. -/
def normalizeIntent (r : RawIntent) : Intent :=
  ⟨parseIntentType r.type, r.skills, r.keywords, r.target_person⟩

/-- Modelled from the spec: plan and execute a normalized intent, shaping
the search-facing response. -/
def runSearchIntent (g : Graph) (raw : RawIntent) : SearchResponse :=
  let i := normalizeIntent raw
  let p := planQuery i
  let rs := execPlan g p
  ⟨intentLabel i.type, rs, rs.length,
   explanationFor (intentLabel i.type) rs.length, p.queryText⟩

theorem parseIntentType_unrecognized {t : String} (h : t ∉ recognizedTypes) :
    parseIntentType t = IntentType.fallback t := by
  simp only [recognizedTypes, List.mem_cons, List.not_mem_nil, or_false,
    not_or] at h
  obtain ⟨h1, h2, h3, h4⟩ := h
  simp [parseIntentType, h1, h2, h3, h4]

/-- C5: For every intent object whose type is unrecognized, the query path
never fails — the intent is normalized to the generic-keyword fallback: the
plan is the keyword-search template (or the no-op plan when no keywords are
present), and the (possibly empty) keyword-search result is returned. -/
theorem unrecognized_intent_fallback (g : Graph) (raw : RawIntent)
    (h : raw.type ∉ recognizedTypes) :
    ((planQuery (normalizeIntent raw)).template = TemplateId.keywordSearch
      ∨ (planQuery (normalizeIntent raw)).template = TemplateId.noop)
    ∧ planQuery (normalizeIntent raw) = keywordFallbackPlan (normalizeIntent raw)
    ∧ (runSearchIntent g raw).results =
        execPlan g (keywordFallbackPlan (normalizeIntent raw))
    ∧ (runSearchIntent g raw).result_count =
        (runSearchIntent g raw).results.length := by
  have hft : (normalizeIntent raw).type = IntentType.fallback raw.type := by
    simp [normalizeIntent, parseIntentType_unrecognized h]
  have hplan : planQuery (normalizeIntent raw) =
      keywordFallbackPlan (normalizeIntent raw) := by
    simp only [planQuery, hft]
  refine ⟨?_, hplan, ?_, rfl⟩
  · rw [hplan]
    unfold keywordFallbackPlan
    split_ifs
    · exact Or.inr rfl
    · exact Or.inl rfl
  · show execPlan g (planQuery (normalizeIntent raw)) =
      execPlan g (keywordFallbackPlan (normalizeIntent raw))
    rw [hplan]

theorem unrecognized_intent_fallback_witness :
    ("tell_me_a_joke" ∉ recognizedTypes)
    ∧ (((planQuery (normalizeIntent ⟨"tell_me_a_joke", [], ["react"], none⟩)).template =
          TemplateId.keywordSearch
        ∨ (planQuery (normalizeIntent ⟨"tell_me_a_joke", [], ["react"], none⟩)).template =
          TemplateId.noop)
      ∧ planQuery (normalizeIntent ⟨"tell_me_a_joke", [], ["react"], none⟩) =
          keywordFallbackPlan (normalizeIntent ⟨"tell_me_a_joke", [], ["react"], none⟩)
      ∧ (runSearchIntent emptyStore ⟨"tell_me_a_joke", [], ["react"], none⟩).results =
          execPlan emptyStore
            (keywordFallbackPlan (normalizeIntent ⟨"tell_me_a_joke", [], ["react"], none⟩))
      ∧ (runSearchIntent emptyStore ⟨"tell_me_a_joke", [], ["react"], none⟩).result_count =
          (runSearchIntent emptyStore ⟨"tell_me_a_joke", [], ["react"], none⟩).results.length) :=
  ⟨by decide,
   unrecognized_intent_fallback emptyStore ⟨"tell_me_a_joke", [], ["react"], none⟩
     (by decide)⟩

/-! ## Empty-query guard (spec 4.4, section 7, and the frontend source) -/

/-- An external call made by the query path. -/
inductive ExtCall
  | llmCall (prompt : String)
  | storeCall (query : String)
  deriving DecidableEq

/-- Error kinds of the query path. -/
inductive SearchError
  | emptyQuery
  | intentParseFailed
  | storageUnavailable
  deriving DecidableEq

/-- Whether a string is empty after trimming: every character is
whitespace (in particular, the empty string is blank). -/
def isBlank (s : String) : Bool := s.data.all Char.isWhitespace

/-- Modelled from the spec (4.4): the query path.  A query that is empty
after trimming fails with `EmptyQuery` before any external call; otherwise
the language-model oracle is called once and the planned query is executed
against the store, recording the external calls made. -/
def searchPath (oracle : String → RawIntent) (g : Graph) (q : String) :
    Except SearchError SearchResponse × List ExtCall :=
  if isBlank q then (Except.error SearchError.emptyQuery, [])
  else
    let raw := oracle q
    let resp := runSearchIntent g raw
    (Except.ok resp, [ExtCall.llmCall q, ExtCall.storeCall resp.cypher_query])

/-- Embedded from the frontend source (SearchView handleSearch): with a
query that trims to empty, the handler sets an error message and issues no
fetch; otherwise it issues one search fetch. -/
def handleSearch (query : String) : Option String × Option String :=
  if isBlank query then (some "Please enter a search query", none)
  else (none, some ("/search?query=" ++ query))

/-- C6: For every query string that is empty or whitespace-only after
trimming, the query path fails with `EmptyQuery` and makes no external call
(no language-model call and no store access), and the frontend handler
likewise issues no fetch. -/
theorem empty_query_no_external_call (oracle : String → RawIntent) (g : Graph)
    (q : String) (h : isBlank q = true) :
    searchPath oracle g q = (Except.error SearchError.emptyQuery, [])
    ∧ handleSearch q = (some "Please enter a search query", none) := by
  constructor <;> simp [searchPath, handleSearch, h]

theorem empty_query_no_external_call_witness :
    (isBlank "   " = true)
    ∧ (searchPath (fun _ => ⟨"find_person_by_skill", [], [], none⟩) emptyStore "   " =
        (Except.error SearchError.emptyQuery, [])
      ∧ handleSearch "   " = (some "Please enter a search query", none)) :=
  ⟨by decide,
   empty_query_no_external_call (fun _ => ⟨"find_person_by_skill", [], [], none⟩)
     emptyStore "   " (by decide)⟩

/-! ## Graph Projector (spec 4.7)

Modelled from the spec: the Graph Projector is not under src/; the bounded
snapshot with typed nodes, typed links, and stats with a truncation flag is
embedded from the specification and the frontend GraphData interface.
-/

/-- A projected node: id, label, entity type, and properties. -/
structure ViewNode where
  id : String
  label : String
  type : String
  properties : List (String × String)
  deriving DecidableEq

/-- A projected link: source id, target id, relation type, and label. -/
structure ViewLink where
  source : String
  target : String
  type : String
  label : String
  deriving DecidableEq

/-- Stats of a graph view. -/
structure ViewStats where
  node_count : Nat
  link_count : Nat
  truncated : Bool
  deriving DecidableEq

/-- The graph view response: node list, link list, stats. -/
structure GraphView where
  nodes : List ViewNode
  links : List ViewLink
  stats : ViewStats
  deriving DecidableEq

/-- A stable node id from entity kind and key. -/
def nodeId (kind key : String) : String := kind ++ ":" ++ key

/-- All nodes of the graph, tagged with their entity type, in stable
storage order (people, then projects, then skills). -/
def graphNodes (g : Graph) : List ViewNode :=
  (g.people.map fun pr => ⟨nodeId "person" pr.1, pr.2, "Person", []⟩) ++
    (g.projects.map fun pr =>
      ⟨nodeId "project" pr.1, pr.1, "Project",
       match pr.2 with
       | some d => [("description", d)]
       | none => []⟩) ++
    (g.skills.map fun pr =>
      ⟨nodeId "skill" pr.1, pr.1, "Skill", [("category", pr.2)]⟩)

/-- All edges of the graph, tagged with their relationship type. -/
def graphLinks (g : Graph) : List ViewLink :=
  (g.hard.map fun e =>
    ⟨nodeId "person" e.1.1, nodeId "skill" e.1.2, "HAS_HARD_SKILL",
     "has hard skill"⟩) ++
    (g.soft.map fun e =>
      ⟨nodeId "person" e.1.1, nodeId "skill" e.1.2, "HAS_SOFT_SKILL",
       "has soft skill"⟩) ++
    (g.works.map fun e =>
      ⟨nodeId "person" e.1.1, nodeId "project" e.1.2, "WORKS_ON", e.2⟩) ++
    (g.tech.map fun e =>
      ⟨nodeId "project" e.1.1, nodeId "skill" e.1.2, "USES_TECH",
       "uses tech"⟩)

/-- Modelled from the spec (4.7): the Graph Projector — a bounded snapshot
with default and maximum node cap 500, nodes tagged with entity type, links
tagged with relationship type and restricted to included endpoints, and
stats with a `truncated` flag set exactly when the cap was hit. -/
def projectGraph (g : Graph) (limit : Option Nat) : GraphView :=
  let cap := min (limit.getD 500) 500
  let allNodes := graphNodes g
  let nodes := allNodes.take cap
  let ids := nodes.map ViewNode.id
  let links := (graphLinks g).filter fun l =>
    decide (l.source ∈ ids) && decide (l.target ∈ ids)
  ⟨nodes, links, ⟨nodes.length, links.length, decide (cap < allNodes.length)⟩⟩

/-- C7: The Graph Projector returns at most the capped number of nodes
(never more than 500), each tagged with its entity type, links tagged with
their relationship type, and stats whose node/link counts equal the
returned list lengths and whose truncated flag is true exactly when the cap
cut off part of the graph. -/
theorem projector_bounded (g : Graph) (limit : Option Nat) :
    (projectGraph g limit).nodes.length ≤ min (limit.getD 500) 500
    ∧ (projectGraph g limit).nodes.length ≤ 500
    ∧ (projectGraph g limit).stats.node_count =
        (projectGraph g limit).nodes.length
    ∧ (projectGraph g limit).stats.link_count =
        (projectGraph g limit).links.length
    ∧ ((projectGraph g limit).stats.truncated = true ↔
        min (limit.getD 500) 500 < (graphNodes g).length)
    ∧ (∀ n ∈ (projectGraph g limit).nodes,
        n.type = "Person" ∨ n.type = "Project" ∨ n.type = "Skill")
    ∧ (∀ l ∈ (projectGraph g limit).links,
        l.type = "HAS_HARD_SKILL" ∨ l.type = "HAS_SOFT_SKILL"
        ∨ l.type = "WORKS_ON" ∨ l.type = "USES_TECH") := by
  refine ⟨?_, ?_, rfl, rfl, ?_, ?_, ?_⟩
  · simp [projectGraph, List.length_take]
  · simp only [projectGraph, List.length_take]
    exact le_trans (min_le_left _ _) (min_le_right _ _)
  · simp [projectGraph, decide_eq_true_iff]
  · intro n hn
    have hmem : n ∈ graphNodes g := by
      simp only [projectGraph] at hn
      exact List.take_subset _ _ hn
    simp only [graphNodes, List.mem_append, List.mem_map] at hmem
    rcases hmem with (⟨pr, _, hpr⟩ | ⟨pr, _, hpr⟩) | ⟨pr, _, hpr⟩ <;>
      rw [← hpr] <;> simp
  · intro l hl
    have hmem : l ∈ graphLinks g := by
      simp only [projectGraph] at hl
      exact List.mem_of_mem_filter hl
    simp only [graphLinks, List.mem_append, List.mem_map] at hmem
    rcases hmem with ((⟨e, _, he⟩ | ⟨e, _, he⟩) | ⟨e, _, he⟩) | ⟨e, _, he⟩ <;>
      rw [← he] <;> simp

/-! ## Upload-facing summary (spec section 6 and the frontend source) -/

/-- Embedded from the frontend source (UploadView UploadStats interface):
the extraction summary of an upload. -/
structure ExtractionSummary where
  people_count : Nat
  projects_count : Nat
  relationships_count : Nat
  deriving DecidableEq

/-- Embedded from the frontend source (UploadView UploadStats interface):
the storage stats of an upload. -/
structure StorageStats where
  people_inserted : Nat
  projects_inserted : Nat
  skills_linked : Nat
  technologies_linked : Nat
  relationships_created : Nat
  deriving DecidableEq

/-- Embedded from the frontend source (UploadView UploadStats interface):
the summary object returned by a successful upload. -/
structure UploadStats where
  filename : String
  text_length : Nat
  extraction_summary : ExtractionSummary
  storage_stats : StorageStats
  deriving DecidableEq

/-- The number of relationships in an extraction result: skill edges, soft
skill edges and project roles per person, plus technologies per project. -/
def relationshipCount (e : ExtractionResult) : Nat :=
  (e.people.map fun p =>
      p.hard_skills.length + p.soft_skills.length + p.projects.length).sum
    + (e.projects.map fun pr => pr.technologies.length).sum

/-- Modelled from the spec (section 6): build the upload-facing summary
from the filename, input text, extraction result and storage stats. -/
def buildUploadSummary (filename text : String) (e : ExtractionResult)
    (ss : StorageStats) : UploadStats :=
  ⟨filename, text.length,
   ⟨e.people.length, e.projects.length, relationshipCount e⟩, ss⟩

/-- C8: Every successful upload summary consists of exactly the fields
filename, text length, extraction summary (people, projects, relationships
counts) and storage stats (people/projects inserted, skills/technologies
linked, relationships created): the record is fully determined by these
fields, and the summary builder populates each of them. -/
theorem upload_summary_fields (u : UploadStats) (filename text : String)
    (e : ExtractionResult) (ss : StorageStats) :
    u = ⟨u.filename, u.text_length,
         ⟨u.extraction_summary.people_count, u.extraction_summary.projects_count,
          u.extraction_summary.relationships_count⟩,
         ⟨u.storage_stats.people_inserted, u.storage_stats.projects_inserted,
          u.storage_stats.skills_linked, u.storage_stats.technologies_linked,
          u.storage_stats.relationships_created⟩⟩
    ∧ (buildUploadSummary filename text e ss).filename = filename
    ∧ (buildUploadSummary filename text e ss).text_length = text.length
    ∧ (buildUploadSummary filename text e ss).extraction_summary.people_count =
        e.people.length
    ∧ (buildUploadSummary filename text e ss).extraction_summary.projects_count =
        e.projects.length
    ∧ (buildUploadSummary filename text e ss).extraction_summary.relationships_count =
        relationshipCount e
    ∧ (buildUploadSummary filename text e ss).storage_stats = ss := by
  refine ⟨?_, rfl, rfl, rfl, rfl, rfl, rfl⟩
  obtain ⟨f, t, ⟨a, b, c⟩, ⟨d1, d2, d3, d4, d5⟩⟩ := u
  rfl

/-! ## Sequential upload loop (frontend source, UploadView handleUpload) -/

/-- Whether an upload outcome is a success. -/
def isOkB : Except String UploadStats → Bool
  | .ok _ => true
  | .error _ => false

/-- Embedded from the frontend source (UploadView handleUpload): files are
uploaded strictly in order; each success is appended to the results; the
first failure sets the error and breaks the loop.  Returns the collected
summaries, the error (if any), and the files actually sent. -/
def processUploads {α : Type} (up : α → Except String UploadStats) :
    List α → List UploadStats × Option String × List α
  | [] => ([], none, [])
  | f :: t =>
      match up f with
      | .ok s =>
          let r := processUploads up t
          (s :: r.1, r.2.1, f :: r.2.2)
      | .error e => ([], some e, [f])

/-- The summaries of the files uploaded successfully before the first
failure (as the claim words it). -/
def okUploads {α : Type} (up : α → Except String UploadStats) (fs : List α) :
    List UploadStats :=
  (fs.takeWhile fun f => isOkB (up f)).filterMap fun f => (up f).toOption

/-- The error of the first failing upload, if any. -/
def firstUploadError {α : Type} (up : α → Except String UploadStats)
    (fs : List α) : Option String :=
  match fs.dropWhile (fun f => isOkB (up f)) with
  | [] => none
  | f :: _ =>
      match up f with
      | .error e => some e
      | .ok _ => none

/-- The files actually sent: the successful prefix plus the first failing
file, and nothing after it. -/
def sentFiles {α : Type} (up : α → Except String UploadStats) (fs : List α) :
    List α :=
  (fs.takeWhile fun f => isOkB (up f)) ++
    (fs.dropWhile fun f => isOkB (up f)).take 1

/-- C9: The upload handler processes the selected files strictly in order
and stops at the first failure: the retained summaries are exactly those of
the files uploaded successfully before the failure, the displayed error is
the first failure's message (none when all succeed), and the files sent are
exactly the successful prefix plus the first failing file — no file after
the failing one is sent. -/
theorem upload_loop_stops_at_first_failure {α : Type}
    (up : α → Except String UploadStats) (fs : List α) :
    processUploads up fs =
      (okUploads up fs, firstUploadError up fs, sentFiles up fs) := by
  induction fs with
  | nil => rfl
  | cons f t ih =>
      cases hu : up f with
      | ok s =>
          simp [processUploads, hu, okUploads, firstUploadError, sentFiles,
            List.takeWhile_cons, List.dropWhile_cons, isOkB, ih,
            List.filterMap_cons, Except.toOption]
      | error e =>
          simp [processUploads, hu, okUploads, firstUploadError, sentFiles,
            List.takeWhile_cons, List.dropWhile_cons, isOkB]

/-! ## Frontend graph filter (GraphVisualization filteredGraphData) -/

/-- A frontend graph node (id, label, type). -/
structure FGNode where
  id : String
  label : String
  type : String
  deriving DecidableEq

/-- A link endpoint as the frontend sees it: either a plain id string or an
already-resolved node object. -/
inductive FEndpoint
  | ref (s : String)
  | node (n : FGNode)
  deriving DecidableEq

/-- The id of an endpoint. -/
def FEndpoint.eid : FEndpoint → String
  | .ref s => s
  | .node n => n.id

/-- A frontend graph link. -/
structure FGLink where
  source : FEndpoint
  target : FEndpoint
  type : String
  label : String
  deriving DecidableEq

/-- Frontend graph stats. -/
structure FGStats where
  node_count : Nat
  link_count : Nat
  truncated : Bool
  deriving DecidableEq

/-- The frontend graph data (GraphData interface). -/
structure FGData where
  nodes : List FGNode
  links : List FGLink
  stats : FGStats
  deriving DecidableEq

/-- Embedded from the frontend source (GraphVisualization filter): whether
a node passes the Person/Project/Skill toggles; other types are always
shown. -/
def nodeVisible (showPeople showProjects showSkills : Bool) (n : FGNode) :
    Bool :=
  if decide (n.type = "Person") && !showPeople then false
  else if decide (n.type = "Project") && !showProjects then false
  else if decide (n.type = "Skill") && !showSkills then false
  else true

/-- Embedded from the frontend source (GraphVisualization
filteredGraphData): keep the visible nodes, keep the links whose both
endpoint ids belong to the visible node id set, and recompute node/link
counts while preserving the truncated flag. -/
def filteredGraphData (d : FGData) (showPeople showProjects showSkills : Bool) :
    FGData :=
  let fn := d.nodes.filter (nodeVisible showPeople showProjects showSkills)
  let ids := fn.map FGNode.id
  let fl := d.links.filter fun l =>
    decide (l.source.eid ∈ ids) && decide (l.target.eid ∈ ids)
  ⟨fn, fl, ⟨fn.length, fl.length, d.stats.truncated⟩⟩

/-- C10: For every fetched graph and every combination of the
Person/Project/Skill toggles, each displayed link's source and target ids
belong to the displayed node id set, and the displayed stats node_count and
link_count equal the lengths of the filtered node and link lists. -/
theorem filtered_graph_invariant (d : FGData) (sp spr ss : Bool) :
    (∀ l ∈ (filteredGraphData d sp spr ss).links,
        l.source.eid ∈ (filteredGraphData d sp spr ss).nodes.map FGNode.id
        ∧ l.target.eid ∈ (filteredGraphData d sp spr ss).nodes.map FGNode.id)
    ∧ (filteredGraphData d sp spr ss).stats.node_count =
        (filteredGraphData d sp spr ss).nodes.length
    ∧ (filteredGraphData d sp spr ss).stats.link_count =
        (filteredGraphData d sp spr ss).links.length := by
  refine ⟨?_, rfl, rfl⟩
  intro l hl
  simp only [filteredGraphData, List.mem_filter, Bool.and_eq_true,
    decide_eq_true_eq] at hl
  exact ⟨hl.2.1, hl.2.2⟩
